import Mathlib

/-!
Verification of the orbit camera (`camera.py`).

The camera stores spherical coordinates `(radius, theta, phi)` together
with control parameters, ingests pygame pointer events, and answers
position, basis-vector and pixel-to-ray queries.  The numeric code is
modelled over the real numbers.  The numpy divisions `v / norm` produce
NaN arrays when the divisor is zero (numpy emits a warning and keeps
going); a query whose result would be polluted by such a zero-divisor
division is modelled as returning `none`, and a clean result as
`some v`.  A zero image dimension makes the Python float division raise
`ZeroDivisionError`, also modelled as `none`.
-/

/-- Three-dimensional real vector, standing for the numpy arrays of
`camera.py`. -/
structure Vec3 where
  x : ℝ
  y : ℝ
  z : ℝ

namespace Vec3

/-- Dot product `a.x*b.x + a.y*b.y + a.z*b.z`. -/
def dot (a b : Vec3) : ℝ := a.x * b.x + a.y * b.y + a.z * b.z

/-- Euclidean norm, as `np.linalg.norm`. -/
noncomputable def norm (v : Vec3) : ℝ := Real.sqrt (dot v v)

/-- Cross product, as `np.cross`. -/
def cross (a b : Vec3) : Vec3 :=
  ⟨a.y * b.z - a.z * b.y, a.z * b.x - a.x * b.z, a.x * b.y - a.y * b.x⟩

/-- Scalar multiplication `t * v`. -/
def smul (t : ℝ) (v : Vec3) : Vec3 := ⟨t * v.x, t * v.y, t * v.z⟩

/-- Componentwise addition. -/
def add (a b : Vec3) : Vec3 := ⟨a.x + b.x, a.y + b.y, a.z + b.z⟩

/-- Componentwise negation `-v`. -/
def neg (v : Vec3) : Vec3 := ⟨-v.x, -v.y, -v.z⟩

/-- Division of a vector by a scalar, `v / t`. -/
noncomputable def sdiv (v : Vec3) (t : ℝ) : Vec3 := ⟨v.x / t, v.y / t, v.z / t⟩

theorem dot_self_nonneg (v : Vec3) : 0 ≤ dot v v := by
  unfold dot
  nlinarith [mul_self_nonneg v.x, mul_self_nonneg v.y, mul_self_nonneg v.z]

theorem norm_nonneg (v : Vec3) : 0 ≤ norm v := Real.sqrt_nonneg _

/-- The norm of `v` squared is `dot v v`. -/
theorem sq_norm (v : Vec3) : (norm v) ^ 2 = dot v v := by
  unfold norm
  exact Real.sq_sqrt (dot_self_nonneg v)

/-- Normalizing a vector by its own nonzero norm yields a unit vector. -/
theorem norm_sdiv_norm (v : Vec3) (h : norm v ≠ 0) : norm (sdiv v (norm v)) = 1 := by
  have hd : dot (sdiv v (norm v)) (sdiv v (norm v)) = dot v v / (norm v) ^ 2 := by
    unfold dot sdiv
    ring
  have hv : dot v v = (norm v) ^ 2 := (sq_norm v).symm
  have h1 : dot (sdiv v (norm v)) (sdiv v (norm v)) = 1 := by
    rw [hd, hv, div_self (pow_ne_zero 2 h)]
  show Real.sqrt (dot (sdiv v (norm v)) (sdiv v (norm v))) = 1
  rw [h1, Real.sqrt_one]

end Vec3

/-- Pointer events delivered by pygame, as a closed tagged union:
`MOUSEBUTTONDOWN`/`MOUSEBUTTONUP` carry the button number, `MOUSEMOTION`
carries the relative motion `event.rel = (dx, dy)`, and `other` stands
for every event kind `handle_event` does not inspect. -/
inductive Event where
  | mouseButtonDown (button : ℕ)
  | mouseButtonUp (button : ℕ)
  | mouseMotion (dx dy : ℝ)
  | other

/-- The camera state: the fields set by `Camera.__init__`. -/
structure Camera where
  radius : ℝ
  theta : ℝ
  phi : ℝ
  fov : ℝ
  mouse_sensitivity : ℝ
  dragging : Bool
  _dirty : Bool

namespace Camera

/-- `Camera.__init__`: radius 50, theta 0, phi 0, fov `np.radians(50)`,
sensitivity 0.005, not dragging, dirty. -/
noncomputable def init : Camera :=
  { radius := 50
    theta := 0
    phi := 0
    fov := 50 * Real.pi / 180
    mouse_sensitivity := 0.005
    dragging := false
    _dirty := true }

/-- `Camera.handle_event`: button 1 toggles `dragging`; motion while
dragging adds `dx * mouse_sensitivity` to `theta`, subtracts
`dy * mouse_sensitivity` from `phi`, clamps `phi` with
`max(-pi/2, min(pi/2, phi))` and sets the dirty flag; everything else is
ignored. -/
noncomputable def handle_event (c : Camera) (e : Event) : Camera :=
  match e with
  | Event.mouseButtonDown b => if b = 1 then { c with dragging := true } else c
  | Event.mouseButtonUp b => if b = 1 then { c with dragging := false } else c
  | Event.mouseMotion dx dy =>
      if c.dragging then
        { c with
          theta := c.theta + dx * c.mouse_sensitivity
          phi := max (-(Real.pi / 2)) (min (Real.pi / 2) (c.phi - dy * c.mouse_sensitivity))
          _dirty := true }
      else c
  | Event.other => c

/-- `Camera.update`: the per-frame hook, currently `pass`. -/
def update (c : Camera) (_dt : ℝ) : Camera := c

/-- `Camera.position`: spherical-to-Cartesian conversion. -/
noncomputable def position (c : Camera) : Vec3 :=
  ⟨c.radius * Real.cos c.phi * Real.cos c.theta,
   c.radius * Real.sin c.phi,
   c.radius * Real.cos c.phi * Real.sin c.theta⟩

/-- The world-up vector `(0, 1, 0)` of `basis_vectors`. -/
def world_up : Vec3 := ⟨0, 1, 0⟩

/-- The `forward = -pos / np.linalg.norm(pos)` line of `basis_vectors`. -/
noncomputable def forwardV (c : Camera) : Vec3 :=
  Vec3.sdiv (Vec3.neg c.position) (Vec3.norm c.position)

/-- The unnormalized `right = np.cross(world_up, forward)` line of
`basis_vectors`. -/
noncomputable def rightRaw (c : Camera) : Vec3 :=
  Vec3.cross world_up c.forwardV

/-- The normalized right vector `right /= np.linalg.norm(right)`. -/
noncomputable def rightV (c : Camera) : Vec3 :=
  Vec3.sdiv c.rightRaw (Vec3.norm c.rightRaw)

/-- The `up = np.cross(forward, right)` line of `basis_vectors`. -/
noncomputable def upV (c : Camera) : Vec3 :=
  Vec3.cross c.forwardV c.rightV

open Classical in
/-- `Camera.basis_vectors`: `(forward, right, up)`.  The two numpy
divisions divide by `norm(pos)` and `norm(cross(world_up, forward))`; a
zero divisor makes numpy produce NaN vectors, modelled by `none`. -/
noncomputable def basis_vectors (c : Camera) : Option (Vec3 × Vec3 × Vec3) :=
  if Vec3.norm c.position = 0 then none
  else if Vec3.norm c.rightRaw = 0 then none
  else some (c.forwardV, c.rightV, c.upV)

/-- The camera-space x offset of `ray_direction`:
`x_ndc * aspect * tan_half_fov` with `x_ndc = ((px+0.5)/img_w)*2-1` and
`aspect = img_w/img_h`. -/
noncomputable def x_cam (c : Camera) (px img_w img_h : ℝ) : ℝ :=
  (((px + 0.5) / img_w) * 2 - 1) * (img_w / img_h) * Real.tan (c.fov / 2)

/-- The camera-space y offset of `ray_direction`:
`y_ndc * tan_half_fov` with `y_ndc = 1-((py+0.5)/img_h)*2`. -/
noncomputable def y_cam (c : Camera) (py img_h : ℝ) : ℝ :=
  (1 - ((py + 0.5) / img_h) * 2) * Real.tan (c.fov / 2)

/-- The pre-normalization world direction of `ray_direction`:
`x_cam * right + y_cam * up + z_cam * forward` with `z_cam = 1`. -/
noncomputable def dirWorld (c : Camera) (px py img_w img_h : ℝ) : Vec3 :=
  Vec3.add
    (Vec3.add (Vec3.smul (c.x_cam px img_w img_h) c.rightV)
      (Vec3.smul (c.y_cam py img_h) c.upV))
    (Vec3.smul 1 c.forwardV)

open Classical in
/-- `Camera.ray_direction`: the §4.4 pixel-to-ray projection.  A zero
image dimension raises `ZeroDivisionError` in Python and a zero norm in
any of the divisions pollutes the result with NaN; both outcomes yield
no valid direction and are modelled by `none`. -/
noncomputable def ray_direction (c : Camera) (px py img_w img_h : ℝ) : Option Vec3 :=
  if img_w = 0 ∨ img_h = 0 then none
  else if Vec3.norm c.position = 0 then none
  else if Vec3.norm c.rightRaw = 0 then none
  else if Vec3.norm (c.dirWorld px py img_w img_h) = 0 then none
  else some (Vec3.sdiv (c.dirWorld px py img_w img_h) (Vec3.norm (c.dirWorld px py img_w img_h)))

/-- `Camera.consume_dirty`: returns the prior dirty flag and resets it. -/
def consume_dirty (c : Camera) : Bool × Camera :=
  (c._dirty, { c with _dirty := false })

end Camera

/-- One externally triggered operation on the camera: an incoming event,
a frame-update tick, or a dirty-flag consume. -/
inductive Op where
  | ev (e : Event)
  | upd (dt : ℝ)
  | consume

/-- Apply one operation to the camera state. -/
noncomputable def Camera.apply (c : Camera) (op : Op) : Camera :=
  match op with
  | Op.ev e => c.handle_event e
  | Op.upd dt => c.update dt
  | Op.consume => (c.consume_dirty).2

/-- Run a sequence of operations from a starting state. -/
noncomputable def Camera.run (c : Camera) (ops : List Op) : Camera :=
  ops.foldl Camera.apply c

namespace Camera

theorem dot_position (c : Camera) :
    Vec3.dot c.position c.position = c.radius ^ 2 := by
  unfold position Vec3.dot
  linear_combination (c.radius ^ 2 * Real.cos c.phi ^ 2) * Real.sin_sq_add_cos_sq c.theta +
    c.radius ^ 2 * Real.sin_sq_add_cos_sq c.phi

theorem norm_position (c : Camera) (h : 0 ≤ c.radius) :
    Vec3.norm c.position = c.radius := by
  unfold Vec3.norm
  rw [dot_position c, Real.sqrt_sq h]

theorem forwardV_eq (c : Camera) (h : 0 < c.radius) :
    c.forwardV = ⟨-(Real.cos c.phi * Real.cos c.theta), -(Real.sin c.phi),
      -(Real.cos c.phi * Real.sin c.theta)⟩ := by
  have hr : c.radius ≠ 0 := ne_of_gt h
  unfold forwardV Vec3.neg Vec3.sdiv
  rw [norm_position c h.le]
  unfold position
  simp only [Vec3.mk.injEq]
  refine ⟨?_, ?_, ?_⟩ <;> field_simp <;> ring

theorem rightRaw_eq (c : Camera) (h : 0 < c.radius) :
    c.rightRaw = ⟨-(Real.cos c.phi * Real.sin c.theta), 0,
      Real.cos c.phi * Real.cos c.theta⟩ := by
  unfold rightRaw
  rw [forwardV_eq c h]
  unfold world_up Vec3.cross
  simp only [Vec3.mk.injEq]
  refine ⟨by ring, by ring, by ring⟩

theorem norm_rightRaw (c : Camera) (h : 0 < c.radius) :
    Vec3.norm c.rightRaw = |Real.cos c.phi| := by
  unfold Vec3.norm
  rw [rightRaw_eq c h]
  have hd : Vec3.dot
      ⟨-(Real.cos c.phi * Real.sin c.theta), 0, Real.cos c.phi * Real.cos c.theta⟩
      ⟨-(Real.cos c.phi * Real.sin c.theta), 0, Real.cos c.phi * Real.cos c.theta⟩ =
      Real.cos c.phi ^ 2 := by
    unfold Vec3.dot
    linear_combination Real.cos c.phi ^ 2 * Real.sin_sq_add_cos_sq c.theta
  rw [hd, Real.sqrt_sq_eq_abs]

theorem rightV_eq (c : Camera) (h : 0 < c.radius) (hc : 0 < Real.cos c.phi) :
    c.rightV = ⟨-(Real.sin c.theta), 0, Real.cos c.theta⟩ := by
  have hcn : Real.cos c.phi ≠ 0 := ne_of_gt hc
  unfold rightV
  rw [norm_rightRaw c h, rightRaw_eq c h, abs_of_pos hc]
  unfold Vec3.sdiv
  simp only [Vec3.mk.injEq]
  refine ⟨?_, ?_, ?_⟩ <;> field_simp <;> ring

theorem upV_eq (c : Camera) (h : 0 < c.radius) (hc : 0 < Real.cos c.phi) :
    c.upV = ⟨-(Real.sin c.phi * Real.cos c.theta), Real.cos c.phi,
      -(Real.sin c.phi * Real.sin c.theta)⟩ := by
  unfold upV
  rw [forwardV_eq c h, rightV_eq c h hc]
  unfold Vec3.cross
  simp only [Vec3.mk.injEq]
  refine ⟨by ring, ?_, by ring⟩
  linear_combination Real.cos c.phi * Real.sin_sq_add_cos_sq c.theta

theorem dot_forwardV (c : Camera) (h : 0 < c.radius) :
    Vec3.dot c.forwardV c.forwardV = 1 := by
  rw [forwardV_eq c h]
  unfold Vec3.dot
  linear_combination Real.cos c.phi ^ 2 * Real.sin_sq_add_cos_sq c.theta +
    Real.sin_sq_add_cos_sq c.phi

theorem norm_forwardV (c : Camera) (h : 0 < c.radius) :
    Vec3.norm c.forwardV = 1 := by
  unfold Vec3.norm
  rw [dot_forwardV c h, Real.sqrt_one]

theorem dot_rightV (c : Camera) (h : 0 < c.radius) (hc : 0 < Real.cos c.phi) :
    Vec3.dot c.rightV c.rightV = 1 := by
  rw [rightV_eq c h hc]
  unfold Vec3.dot
  linear_combination Real.sin_sq_add_cos_sq c.theta

theorem dot_upV (c : Camera) (h : 0 < c.radius) (hc : 0 < Real.cos c.phi) :
    Vec3.dot c.upV c.upV = 1 := by
  rw [upV_eq c h hc]
  unfold Vec3.dot
  linear_combination Real.sin c.phi ^ 2 * Real.sin_sq_add_cos_sq c.theta +
    Real.sin_sq_add_cos_sq c.phi

theorem dot_forwardV_rightV (c : Camera) (h : 0 < c.radius) (hc : 0 < Real.cos c.phi) :
    Vec3.dot c.forwardV c.rightV = 0 := by
  rw [forwardV_eq c h, rightV_eq c h hc]
  unfold Vec3.dot
  ring

theorem dot_forwardV_upV (c : Camera) (h : 0 < c.radius) (hc : 0 < Real.cos c.phi) :
    Vec3.dot c.forwardV c.upV = 0 := by
  rw [forwardV_eq c h, upV_eq c h hc]
  unfold Vec3.dot
  linear_combination Real.sin c.phi * Real.cos c.phi * Real.sin_sq_add_cos_sq c.theta

theorem dot_rightV_upV (c : Camera) (h : 0 < c.radius) (hc : 0 < Real.cos c.phi) :
    Vec3.dot c.rightV c.upV = 0 := by
  rw [rightV_eq c h hc, upV_eq c h hc]
  unfold Vec3.dot
  ring

theorem cos_phi_pos (c : Camera) (hphi : |c.phi| < Real.pi / 2) : 0 < Real.cos c.phi := by
  rcases abs_lt.mp hphi with ⟨h1, h2⟩
  exact Real.cos_pos_of_mem_Ioo ⟨h1, h2⟩

theorem basis_vectors_eq (c : Camera) (h : 0 < c.radius) (hc : 0 < Real.cos c.phi) :
    c.basis_vectors = some (c.forwardV, c.rightV, c.upV) := by
  unfold basis_vectors
  rw [norm_position c h.le, norm_rightRaw c h, abs_of_pos hc]
  rw [if_neg (ne_of_gt h), if_neg (ne_of_gt hc)]

end Camera

/-- Expanding the squared norm of `a*r + b*u + 1*f` over an orthonormal
triple gives `a^2 + b^2 + 1`. -/
theorem Vec3.dot_combo (f r u : Vec3) (a b : ℝ)
    (hrr : Vec3.dot r r = 1) (huu : Vec3.dot u u = 1) (hff : Vec3.dot f f = 1)
    (hru : Vec3.dot r u = 0) (hfr : Vec3.dot f r = 0) (hfu : Vec3.dot f u = 0) :
    Vec3.dot (Vec3.add (Vec3.add (Vec3.smul a r) (Vec3.smul b u)) (Vec3.smul 1 f))
      (Vec3.add (Vec3.add (Vec3.smul a r) (Vec3.smul b u)) (Vec3.smul 1 f)) =
      a ^ 2 + b ^ 2 + 1 := by
  have key : Vec3.dot (Vec3.add (Vec3.add (Vec3.smul a r) (Vec3.smul b u)) (Vec3.smul 1 f))
      (Vec3.add (Vec3.add (Vec3.smul a r) (Vec3.smul b u)) (Vec3.smul 1 f)) =
      a ^ 2 * Vec3.dot r r + b ^ 2 * Vec3.dot u u + Vec3.dot f f +
        2 * a * b * Vec3.dot r u + 2 * a * Vec3.dot f r + 2 * b * Vec3.dot f u := by
    unfold Vec3.dot Vec3.add Vec3.smul
    ring
  rw [key, hrr, huu, hff, hru, hfr, hfu]
  ring

namespace Camera

theorem dot_dirWorld (c : Camera) (px py img_w img_h : ℝ) (h : 0 < c.radius)
    (hc : 0 < Real.cos c.phi) :
    Vec3.dot (c.dirWorld px py img_w img_h) (c.dirWorld px py img_w img_h) =
      (c.x_cam px img_w img_h) ^ 2 + (c.y_cam py img_h) ^ 2 + 1 := by
  unfold dirWorld
  exact Vec3.dot_combo c.forwardV c.rightV c.upV _ _
    (dot_rightV c h hc) (dot_upV c h hc) (dot_forwardV c h)
    (dot_rightV_upV c h hc) (dot_forwardV_rightV c h hc) (dot_forwardV_upV c h hc)

theorem one_le_norm_dirWorld (c : Camera) (px py img_w img_h : ℝ) (h : 0 < c.radius)
    (hc : 0 < Real.cos c.phi) :
    1 ≤ Vec3.norm (c.dirWorld px py img_w img_h) := by
  unfold Vec3.norm
  rw [dot_dirWorld c px py img_w img_h h hc]
  have h1 : (1 : ℝ) = Real.sqrt 1 := Real.sqrt_one.symm
  rw [h1]
  apply Real.sqrt_le_sqrt
  nlinarith [sq_nonneg (c.x_cam px img_w img_h), sq_nonneg (c.y_cam py img_h)]

theorem norm_dirWorld_ne_zero (c : Camera) (px py img_w img_h : ℝ) (h : 0 < c.radius)
    (hc : 0 < Real.cos c.phi) :
    Vec3.norm (c.dirWorld px py img_w img_h) ≠ 0 := by
  have h1 := one_le_norm_dirWorld c px py img_w img_h h hc
  linarith

theorem ray_direction_eq (c : Camera) (px py img_w img_h : ℝ) (h : 0 < c.radius)
    (hc : 0 < Real.cos c.phi) (hw : img_w ≠ 0) (hh : img_h ≠ 0) :
    c.ray_direction px py img_w img_h =
      some (Vec3.sdiv (c.dirWorld px py img_w img_h)
        (Vec3.norm (c.dirWorld px py img_w img_h))) := by
  unfold ray_direction
  rw [norm_position c h.le, norm_rightRaw c h, abs_of_pos hc]
  rw [if_neg (by push_neg; exact ⟨hw, hh⟩), if_neg (ne_of_gt h), if_neg (ne_of_gt hc),
    if_neg (norm_dirWorld_ne_zero c px py img_w img_h h hc)]

end Camera

theorem Vec3.combo_zero (r u v : Vec3) :
    Vec3.add (Vec3.add (Vec3.smul 0 r) (Vec3.smul 0 u)) (Vec3.smul 1 v) = v := by
  cases v
  simp [Vec3.add, Vec3.smul]

theorem Vec3.sdiv_one (v : Vec3) : Vec3.sdiv v 1 = v := by
  cases v
  simp [Vec3.sdiv]

namespace Camera

theorem run_nil (c : Camera) : c.run [] = c := rfl

theorem run_cons (c : Camera) (op : Op) (ops : List Op) :
    c.run (op :: ops) = (c.apply op).run ops := rfl

/-- Applying any single operation keeps `phi` inside `[-pi/2, pi/2]`. -/
theorem phi_apply_mem (c : Camera) (op : Op)
    (h1 : -(Real.pi / 2) ≤ c.phi) (h2 : c.phi ≤ Real.pi / 2) :
    -(Real.pi / 2) ≤ (c.apply op).phi ∧ (c.apply op).phi ≤ Real.pi / 2 := by
  cases op with
  | ev e =>
    cases e with
    | mouseButtonDown b =>
      by_cases hb : b = 1 <;> simp [apply, handle_event, hb] <;> exact ⟨h1, h2⟩
    | mouseButtonUp b =>
      by_cases hb : b = 1 <;> simp [apply, handle_event, hb] <;> exact ⟨h1, h2⟩
    | mouseMotion dx dy =>
      by_cases hd : c.dragging
      · simp only [apply, handle_event, hd, if_true]
        refine ⟨le_max_left _ _, max_le (by linarith [Real.pi_pos]) (min_le_left _ _)⟩
      · simp [apply, handle_event, hd]
        exact ⟨h1, h2⟩
    | other => exact ⟨h1, h2⟩
  | upd dt => exact ⟨h1, h2⟩
  | consume => exact ⟨h1, h2⟩

/-- Running any sequence of operations keeps `phi` inside `[-pi/2, pi/2]`. -/
theorem phi_run_mem (ops : List Op) : ∀ c : Camera,
    -(Real.pi / 2) ≤ c.phi → c.phi ≤ Real.pi / 2 →
    -(Real.pi / 2) ≤ (c.run ops).phi ∧ (c.run ops).phi ≤ Real.pi / 2 := by
  induction ops with
  | nil => intro c h1 h2; exact ⟨h1, h2⟩
  | cons op rest ih =>
    intro c h1 h2
    have h := phi_apply_mem c op h1 h2
    exact ih (c.apply op) h.1 h.2

end Camera

/-- Modelled from the spec (amended dirty protocol): the expected dirty
flag after a trace of operations, given the dragging and dirty flags at
the start of the trace.  It is `true` exactly when a pointer-move was
handled while dragging after the last consume (or when the starting
flag was never consumed). -/
def dirtyTrace (dragging dirty : Bool) : List Op → Bool
  | [] => dirty
  | Op.ev (Event.mouseButtonDown b) :: rest =>
      dirtyTrace (if b = 1 then true else dragging) dirty rest
  | Op.ev (Event.mouseButtonUp b) :: rest =>
      dirtyTrace (if b = 1 then false else dragging) dirty rest
  | Op.ev (Event.mouseMotion _ _) :: rest =>
      dirtyTrace dragging (dirty || dragging) rest
  | Op.ev Event.other :: rest => dirtyTrace dragging dirty rest
  | Op.upd _ :: rest => dirtyTrace dragging dirty rest
  | Op.consume :: rest => dirtyTrace dragging false rest

namespace Camera

/-- The camera's dirty flag follows the `dirtyTrace` reference model. -/
theorem run_dirty (ops : List Op) : ∀ c : Camera,
    (c.run ops)._dirty = dirtyTrace c.dragging c._dirty ops := by
  induction ops with
  | nil => intro c; rfl
  | cons op rest ih =>
    intro c
    rw [run_cons]
    rw [ih (c.apply op)]
    cases op with
    | ev e =>
      cases e with
      | mouseButtonDown b =>
        by_cases hb : b = 1 <;> simp [apply, handle_event, hb, dirtyTrace]
      | mouseButtonUp b =>
        by_cases hb : b = 1 <;> simp [apply, handle_event, hb, dirtyTrace]
      | mouseMotion dx dy =>
        by_cases hd : c.dragging <;> simp [apply, handle_event, hd, dirtyTrace]
      | other => simp [apply, handle_event, dirtyTrace]
    | upd dt => simp [apply, update, dirtyTrace]
    | consume => simp [apply, consume_dirty, dirtyTrace]

end Camera

/-- A valid camera state at the gimbal boundary: the default camera
after a drag has pushed `phi` to exactly `pi/2` (the clamp makes this
state reachable). -/
noncomputable def gimbalCam : Camera :=
  { radius := 50
    theta := 0
    phi := Real.pi / 2
    fov := 50 * Real.pi / 180
    mouse_sensitivity := 0.005
    dragging := true
    _dirty := true }

theorem gimbalCam_norm_position : Vec3.norm gimbalCam.position = 50 := by
  have h : Vec3.norm gimbalCam.position = gimbalCam.radius :=
    Camera.norm_position gimbalCam (by norm_num [gimbalCam])
  rw [h]
  rfl

theorem gimbalCam_norm_rightRaw : Vec3.norm gimbalCam.rightRaw = 0 := by
  have h : Vec3.norm gimbalCam.rightRaw = |Real.cos gimbalCam.phi| :=
    Camera.norm_rightRaw gimbalCam (by norm_num [gimbalCam])
  rw [h, show gimbalCam.phi = Real.pi / 2 from rfl, Real.cos_pi_div_two, abs_zero]

/-- A camera state violating the `radius > 0` invariant. -/
noncomputable def zeroRadiusCam : Camera :=
  { radius := 0
    theta := 0
    phi := 0
    fov := 50 * Real.pi / 180
    mouse_sensitivity := 0.005
    dragging := false
    _dirty := true }

/-- C3: `position()` returns exactly
`(radius*cos(phi)*cos(theta), radius*sin(phi), radius*cos(phi)*sin(theta))`;
for a camera state (whose invariant gives `radius ≥ 0`) the Euclidean
norm of the position is `radius`; and the freshly constructed camera
(radius 50, theta 0, phi 0) sits at `(50, 0, 0)`. -/
theorem position_spec (c : Camera) (hr : 0 ≤ c.radius) :
    c.position = ⟨c.radius * Real.cos c.phi * Real.cos c.theta,
      c.radius * Real.sin c.phi,
      c.radius * Real.cos c.phi * Real.sin c.theta⟩ ∧
    Vec3.norm c.position = c.radius ∧
    Camera.init.position = ⟨50, 0, 0⟩ := by
  refine ⟨rfl, Camera.norm_position c hr, ?_⟩
  norm_num [Camera.init, Camera.position, Vec3.mk.injEq]

theorem position_spec_witness :
    (0 : ℝ) ≤ Camera.init.radius ∧
    (Camera.init.position = ⟨Camera.init.radius * Real.cos Camera.init.phi * Real.cos Camera.init.theta,
      Camera.init.radius * Real.sin Camera.init.phi,
      Camera.init.radius * Real.cos Camera.init.phi * Real.sin Camera.init.theta⟩ ∧
    Vec3.norm Camera.init.position = Camera.init.radius ∧
    Camera.init.position = ⟨50, 0, 0⟩) := by
  have h : (0 : ℝ) ≤ Camera.init.radius := by norm_num [Camera.init]
  exact ⟨h, position_spec Camera.init h⟩

/-- C4: a pointer-move of `(dx, dy)` while dragging adds
`dx * mouse_sensitivity` to `theta`, replaces `phi` by
`phi - dy * mouse_sensitivity` clamped to `[-pi/2, pi/2]`, sets the
dirty flag, and changes no other field. -/
theorem handle_event_drag_motion (c : Camera) (dx dy : ℝ) (hd : c.dragging = true) :
    c.handle_event (Event.mouseMotion dx dy) =
      { c with
        theta := c.theta + dx * c.mouse_sensitivity
        phi := max (-(Real.pi / 2)) (min (Real.pi / 2) (c.phi - dy * c.mouse_sensitivity))
        _dirty := true } := by
  simp [Camera.handle_event, hd]

/-- A default camera that has started a primary-button drag. -/
noncomputable def dragCam : Camera := { Camera.init with dragging := true }

theorem handle_event_drag_motion_witness :
    dragCam.dragging = true ∧
    dragCam.handle_event (Event.mouseMotion 1 2) =
      { dragCam with
        theta := dragCam.theta + 1 * dragCam.mouse_sensitivity
        phi := max (-(Real.pi / 2)) (min (Real.pi / 2) (dragCam.phi - 2 * dragCam.mouse_sensitivity))
        _dirty := true } :=
  ⟨rfl, handle_event_drag_motion dragCam 1 2 rfl⟩

/-- C9: a pointer-move while not dragging, a button event for a
non-primary button, and any unrecognized event kind all leave the
camera state completely unchanged. -/
theorem handle_event_noop (c : Camera) (dx dy : ℝ) (b : ℕ) :
    (c.dragging = false → c.handle_event (Event.mouseMotion dx dy) = c) ∧
    (b ≠ 1 → c.handle_event (Event.mouseButtonDown b) = c ∧
      c.handle_event (Event.mouseButtonUp b) = c) ∧
    c.handle_event Event.other = c := by
  refine ⟨?_, ?_, rfl⟩
  · intro h
    simp [Camera.handle_event, h]
  · intro h
    constructor <;> simp [Camera.handle_event, h]

theorem handle_event_noop_witness :
    Camera.init.handle_event (Event.mouseMotion 3 4) = Camera.init ∧
    Camera.init.handle_event (Event.mouseButtonDown 3) = Camera.init ∧
    Camera.init.handle_event (Event.mouseButtonUp 3) = Camera.init ∧
    Camera.init.handle_event Event.other = Camera.init := by
  have h := handle_event_noop Camera.init 3 4 3
  exact ⟨h.1 rfl, (h.2.1 (by norm_num)).1, (h.2.1 (by norm_num)).2, h.2.2⟩

/-- C8: on a camera whose `radius > 0` invariant is violated
(`radius = 0`), the norm of the position — the divisor of the
`forward = -pos / norm(pos)` line — is exactly zero, so `basis_vectors`
and `ray_direction` divide by zero.  numpy turns that division into NaN
vectors with only a runtime warning (modelled here by `none`); the
source contains no check and raises no degenerate-geometry error, in
conflict with the stated fail-loudly policy. -/
theorem zero_radius_divides_by_zero :
    Vec3.norm zeroRadiusCam.position = 0 ∧
    zeroRadiusCam.basis_vectors = none ∧
    zeroRadiusCam.ray_direction 0 0 100 100 = none := by
  have h0 : Vec3.norm zeroRadiusCam.position = 0 := by
    have h := Camera.norm_position zeroRadiusCam (by norm_num [zeroRadiusCam])
    rw [h]
    rfl
  refine ⟨h0, ?_, ?_⟩
  · unfold Camera.basis_vectors
    rw [if_pos h0]
  · unfold Camera.ray_direction
    rw [if_neg (by norm_num), if_pos h0]

/-- C7 (amended): the dirty flag starts true at construction;
`consume_dirty` returns the prior value of the flag and resets it to
false, changing nothing else; any event that changes `theta` or `phi`
sets the flag; and over every trace of operations the flag equals the
`dirtyTrace` reference model — true exactly when a pointer-move was
handled while dragging since the last consume read (or when no consume
has happened since construction). -/
theorem dirty_flag_protocol :
    Camera.init._dirty = true ∧
    (∀ c : Camera, c.consume_dirty = (c._dirty, { c with _dirty := false })) ∧
    (∀ (c : Camera) (e : Event),
      ((c.handle_event e).theta ≠ c.theta ∨ (c.handle_event e).phi ≠ c.phi) →
      (c.handle_event e)._dirty = true) ∧
    (∀ ops : List Op, (Camera.init.run ops)._dirty = dirtyTrace false true ops) := by
  refine ⟨rfl, fun c => rfl, ?_, ?_⟩
  · intro c e h
    cases e with
    | mouseButtonDown b =>
      by_cases hb : b = 1 <;> simp [Camera.handle_event, hb] at h
    | mouseButtonUp b =>
      by_cases hb : b = 1 <;> simp [Camera.handle_event, hb] at h
    | mouseMotion dx dy =>
      by_cases hd : c.dragging
      · simp [Camera.handle_event, hd]
      · simp [Camera.handle_event, hd] at h
    | other => simp [Camera.handle_event] at h
  · intro ops
    exact Camera.run_dirty ops Camera.init

/-- C7 counterexample: consume the flag, press the primary button, then
move the pointer with zero delta.  The flag becomes true although
`theta` and `phi` still hold the values they had at the consume read,
so "dirty iff orientation changed since the last read" is false on this
trace. -/
theorem dirty_without_orientation_change :
    (Camera.init.run [Op.consume, Op.ev (Event.mouseButtonDown 1),
      Op.ev (Event.mouseMotion 0 0)])._dirty = true ∧
    (Camera.init.run [Op.consume, Op.ev (Event.mouseButtonDown 1),
      Op.ev (Event.mouseMotion 0 0)]).theta = (Camera.init.consume_dirty).2.theta ∧
    (Camera.init.run [Op.consume, Op.ev (Event.mouseButtonDown 1),
      Op.ev (Event.mouseMotion 0 0)]).phi = (Camera.init.consume_dirty).2.phi := by
  have hpi : (0 : ℝ) < Real.pi := Real.pi_pos
  have hmin : min (Real.pi / 2) (0 : ℝ) = 0 := min_eq_right (by linarith)
  have hmax : max (-(Real.pi / 2)) (0 : ℝ) = 0 := max_eq_right (by linarith)
  refine ⟨rfl, ?_, ?_⟩
  · norm_num [Camera.run, List.foldl, Camera.apply, Camera.handle_event,
      Camera.consume_dirty, Camera.init]
  · norm_num [Camera.run, List.foldl, Camera.apply, Camera.handle_event,
      Camera.consume_dirty, Camera.init, hmin, hmax]

/-- C6: in every state reachable from construction, `phi` lies in
`[-pi/2, pi/2]`; a single large drag drives it to exactly `pi/2`
(negative `dy`) or exactly `-pi/2` (positive `dy`) and no further. -/
theorem phi_clamped_invariant :
    (∀ ops : List Op, -(Real.pi / 2) ≤ (Camera.init.run ops).phi ∧
      (Camera.init.run ops).phi ≤ Real.pi / 2) ∧
    (Camera.init.run [Op.ev (Event.mouseButtonDown 1),
      Op.ev (Event.mouseMotion 0 (-1000))]).phi = Real.pi / 2 ∧
    (Camera.init.run [Op.ev (Event.mouseButtonDown 1),
      Op.ev (Event.mouseMotion 0 1000)]).phi = -(Real.pi / 2) := by
  have hpi : (0 : ℝ) < Real.pi := Real.pi_pos
  have h4 : Real.pi ≤ 4 := Real.pi_le_four
  have key1 : ∀ t : ℝ, 5 ≤ t → max (-(Real.pi / 2)) (min (Real.pi / 2) t) = Real.pi / 2 := by
    intro t ht
    rw [min_eq_left (by linarith), max_eq_right (by linarith)]
  have key2 : ∀ t : ℝ, t ≤ -5 → max (-(Real.pi / 2)) (min (Real.pi / 2) t) = -(Real.pi / 2) := by
    intro t ht
    rw [min_eq_right (by linarith), max_eq_left (by linarith)]
  refine ⟨?_, ?_, ?_⟩
  · intro ops
    exact Camera.phi_run_mem ops Camera.init
      (by rw [show Camera.init.phi = 0 from rfl]; linarith)
      (by rw [show Camera.init.phi = 0 from rfl]; linarith)
  · show (Camera.apply (Camera.apply Camera.init (Op.ev (Event.mouseButtonDown 1)))
      (Op.ev (Event.mouseMotion 0 (-1000)))).phi = Real.pi / 2
    simp only [Camera.apply, Camera.handle_event, Camera.init]
    norm_num
    refine key1 _ ?_
    norm_num
  · show (Camera.apply (Camera.apply Camera.init (Op.ev (Event.mouseButtonDown 1)))
      (Op.ev (Event.mouseMotion 0 1000))).phi = -(Real.pi / 2)
    simp only [Camera.apply, Camera.handle_event, Camera.init]
    norm_num
    right
    linarith

/-- C2 (amended): for every camera state with `radius > 0` and
`|phi| < pi/2`, `basis_vectors` returns three pairwise-orthogonal unit
vectors, and the result is a pure function of `(radius, theta, phi)`
alone — recomputed from the stored angles on every call, with no cached
state it could depend on. -/
theorem basis_vectors_orthonormal (c : Camera) (hr : 0 < c.radius)
    (hphi : |c.phi| < Real.pi / 2) :
    (∃ f r u : Vec3, c.basis_vectors = some (f, r, u) ∧
      Vec3.dot f r = 0 ∧ Vec3.dot f u = 0 ∧ Vec3.dot r u = 0 ∧
      Vec3.norm f = 1 ∧ Vec3.norm r = 1 ∧ Vec3.norm u = 1) ∧
    (∀ c' : Camera, c'.radius = c.radius → c'.theta = c.theta → c'.phi = c.phi →
      c'.basis_vectors = c.basis_vectors) := by
  have hc := Camera.cos_phi_pos c hphi
  constructor
  · refine ⟨c.forwardV, c.rightV, c.upV, Camera.basis_vectors_eq c hr hc,
      Camera.dot_forwardV_rightV c hr hc, Camera.dot_forwardV_upV c hr hc,
      Camera.dot_rightV_upV c hr hc, Camera.norm_forwardV c hr, ?_, ?_⟩
    · unfold Vec3.norm
      rw [Camera.dot_rightV c hr hc, Real.sqrt_one]
    · unfold Vec3.norm
      rw [Camera.dot_upV c hr hc, Real.sqrt_one]
  · intro c' h1 h2 h3
    have hp : c'.position = c.position := by
      unfold Camera.position
      rw [h1, h2, h3]
    have hf : c'.forwardV = c.forwardV := by
      unfold Camera.forwardV
      rw [hp]
    have hraw : c'.rightRaw = c.rightRaw := by
      unfold Camera.rightRaw
      rw [hf]
    have hrv : c'.rightV = c.rightV := by
      unfold Camera.rightV
      rw [hraw]
    have hu : c'.upV = c.upV := by
      unfold Camera.upV
      rw [hf, hrv]
    unfold Camera.basis_vectors
    rw [hp, hraw, hf, hrv, hu]

theorem basis_vectors_orthonormal_witness :
    ((0 : ℝ) < Camera.init.radius ∧ |Camera.init.phi| < Real.pi / 2) ∧
    ((∃ f r u : Vec3, Camera.init.basis_vectors = some (f, r, u) ∧
      Vec3.dot f r = 0 ∧ Vec3.dot f u = 0 ∧ Vec3.dot r u = 0 ∧
      Vec3.norm f = 1 ∧ Vec3.norm r = 1 ∧ Vec3.norm u = 1) ∧
    (∀ c' : Camera, c'.radius = Camera.init.radius → c'.theta = Camera.init.theta →
      c'.phi = Camera.init.phi → c'.basis_vectors = Camera.init.basis_vectors)) := by
  have h1 : (0 : ℝ) < Camera.init.radius := by norm_num [Camera.init]
  have h2 : |Camera.init.phi| < Real.pi / 2 := by
    rw [show Camera.init.phi = 0 from rfl, abs_zero]
    exact Real.pi_div_two_pos
  exact ⟨⟨h1, h2⟩, basis_vectors_orthonormal Camera.init h1 h2⟩

/-- C2 counterexample: the gimbal state `phi = pi/2` is a valid camera
state (`radius = 50 > 0`, `phi` inside the clamp interval), yet
`basis_vectors` returns no vector triple at all: the divisor
`norm(cross(world_up, forward))` is zero and numpy produces NaN
vectors, which are neither orthogonal nor of unit norm. -/
theorem basis_vectors_gimbal_counterexample :
    gimbalCam.basis_vectors = none ∧
    0 < gimbalCam.radius ∧
    -(Real.pi / 2) ≤ gimbalCam.phi ∧ gimbalCam.phi ≤ Real.pi / 2 := by
  refine ⟨?_, by norm_num [gimbalCam], ?_, ?_⟩
  · unfold Camera.basis_vectors
    rw [gimbalCam_norm_position, gimbalCam_norm_rightRaw]
    norm_num
  · rw [show gimbalCam.phi = Real.pi / 2 from rfl]
    linarith [Real.pi_pos]
  · rw [show gimbalCam.phi = Real.pi / 2 from rfl]

/-- C1 (amended): for every camera state with `radius > 0` and
`|phi| < pi/2`, and every pixel query with positive image dimensions,
`ray_direction` — the §4.4 pixel-center NDC mapping scaled by aspect
and `tan(fov/2)`, combined over the basis and normalized — returns a
direction of exactly unit length and never fails. -/
theorem ray_direction_unit (c : Camera) (px py img_w img_h : ℝ)
    (hr : 0 < c.radius) (hphi : |c.phi| < Real.pi / 2)
    (hw : 0 < img_w) (hh : 0 < img_h) :
    ∃ v : Vec3, c.ray_direction px py img_w img_h = some v ∧ Vec3.norm v = 1 := by
  have hc := Camera.cos_phi_pos c hphi
  refine ⟨_, Camera.ray_direction_eq c px py img_w img_h hr hc
    (ne_of_gt hw) (ne_of_gt hh), ?_⟩
  exact Vec3.norm_sdiv_norm _ (Camera.norm_dirWorld_ne_zero c px py img_w img_h hr hc)

theorem ray_direction_unit_witness :
    ((0 : ℝ) < Camera.init.radius ∧ |Camera.init.phi| < Real.pi / 2 ∧
      (0 : ℝ) < 100 ∧ (0 : ℝ) < 100) ∧
    (∃ v : Vec3, Camera.init.ray_direction 0 0 100 100 = some v ∧ Vec3.norm v = 1) := by
  have h1 : (0 : ℝ) < Camera.init.radius := by norm_num [Camera.init]
  have h2 : |Camera.init.phi| < Real.pi / 2 := by
    rw [show Camera.init.phi = 0 from rfl, abs_zero]
    exact Real.pi_div_two_pos
  have h3 : (0 : ℝ) < 100 := by norm_num
  exact ⟨⟨h1, h2, h3, h3⟩, ray_direction_unit Camera.init 0 0 100 100 h1 h2 h3 h3⟩

/-- C1 counterexample: at the valid gimbal state `phi = pi/2`
(`radius = 50 > 0`) with a well-formed 100x100 pixel query,
`ray_direction` returns no vector at all: it divides by the zero norm
of `cross(world_up, forward)`, which numpy turns into NaN components —
not a unit-length vector. -/
theorem ray_direction_gimbal_counterexample :
    gimbalCam.ray_direction 0 0 100 100 = none ∧
    0 < gimbalCam.radius ∧
    -(Real.pi / 2) ≤ gimbalCam.phi ∧ gimbalCam.phi ≤ Real.pi / 2 := by
  refine ⟨?_, by norm_num [gimbalCam], ?_, ?_⟩
  · unfold Camera.ray_direction
    rw [gimbalCam_norm_position, gimbalCam_norm_rightRaw]
    norm_num
  · rw [show gimbalCam.phi = Real.pi / 2 from rfl]
    linarith [Real.pi_pos]
  · rw [show gimbalCam.phi = Real.pi / 2 from rfl]

/-- C5: for odd positive image dimensions, the ray through the exact
center pixel `px = (img_w-1)/2, py = (img_h-1)/2` is the forward basis
vector, for every field of view (the statement quantifies over all
camera states with `radius > 0` and `|phi| < pi/2`, with `fov`
arbitrary). -/
theorem center_pixel_ray_is_forward (c : Camera) (img_w img_h : ℕ)
    (how : Odd img_w) (hoh : Odd img_h) (hw : 0 < img_w) (hh : 0 < img_h)
    (hr : 0 < c.radius) (hphi : |c.phi| < Real.pi / 2) :
    c.ray_direction (((img_w : ℝ) - 1) / 2) (((img_h : ℝ) - 1) / 2) img_w img_h =
      some c.forwardV := by
  have hc := Camera.cos_phi_pos c hphi
  have hwR : (0 : ℝ) < (img_w : ℝ) := by exact_mod_cast hw
  have hhR : (0 : ℝ) < (img_h : ℝ) := by exact_mod_cast hh
  have hw0 : (img_w : ℝ) ≠ 0 := ne_of_gt hwR
  have hh0 : (img_h : ℝ) ≠ 0 := ne_of_gt hhR
  have hx : c.x_cam (((img_w : ℝ) - 1) / 2) img_w img_h = 0 := by
    unfold Camera.x_cam
    have h0 : ((((img_w : ℝ) - 1) / 2 + 0.5) / (img_w : ℝ)) = 1 / 2 := by
      rw [div_eq_iff hw0]
      ring
    rw [h0]
    norm_num
  have hy : c.y_cam (((img_h : ℝ) - 1) / 2) img_h = 0 := by
    unfold Camera.y_cam
    have h0 : ((((img_h : ℝ) - 1) / 2 + 0.5) / (img_h : ℝ)) = 1 / 2 := by
      rw [div_eq_iff hh0]
      ring
    rw [h0]
    norm_num
  have hd : c.dirWorld (((img_w : ℝ) - 1) / 2) (((img_h : ℝ) - 1) / 2) img_w img_h =
      c.forwardV := by
    unfold Camera.dirWorld
    rw [hx, hy]
    exact Vec3.combo_zero c.rightV c.upV c.forwardV
  rw [Camera.ray_direction_eq c _ _ _ _ hr hc hw0 hh0, hd,
    Camera.norm_forwardV c hr, Vec3.sdiv_one]

theorem center_pixel_ray_is_forward_witness :
    (Odd 101 ∧ 0 < 101 ∧ (0 : ℝ) < Camera.init.radius ∧
      |Camera.init.phi| < Real.pi / 2) ∧
    Camera.init.ray_direction ((((101 : ℕ) : ℝ) - 1) / 2) ((((101 : ℕ) : ℝ) - 1) / 2)
      ((101 : ℕ) : ℝ) ((101 : ℕ) : ℝ) = some Camera.init.forwardV := by
  have h1 : (0 : ℝ) < Camera.init.radius := by norm_num [Camera.init]
  have h2 : |Camera.init.phi| < Real.pi / 2 := by
    rw [show Camera.init.phi = 0 from rfl, abs_zero]
    exact Real.pi_div_two_pos
  exact ⟨⟨by decide, by decide, h1, h2⟩,
    center_pixel_ray_is_forward Camera.init 101 101 (by decide) (by decide)
      (by decide) (by decide) h1 h2⟩

/-- C10: for a camera with `radius > 0` and `|phi| < pi/2`, every
divisor inside `basis_vectors` and `ray_direction` is nonzero — the
position norm equals `radius`, the norm of `cross(world_up, forward)`
equals `cos(phi) > 0`, and the pre-normalization world direction has
norm at least 1 — so both queries succeed without dividing by zero; and
at the reachable boundary states `phi = ±pi/2` the cross product's norm
is zero, so the guarantee does not extend there. -/
theorem no_division_by_zero_in_queries (c : Camera) (hr : 0 < c.radius)
    (hphi : |c.phi| < Real.pi / 2) :
    (Vec3.norm c.position = c.radius ∧ 0 < Vec3.norm c.position) ∧
    (Vec3.norm c.rightRaw = Real.cos c.phi ∧ 0 < Vec3.norm c.rightRaw) ∧
    (∀ px py img_w img_h : ℝ, 1 ≤ Vec3.norm (c.dirWorld px py img_w img_h)) ∧
    (∃ t, c.basis_vectors = some t) ∧
    (∀ px py img_w img_h : ℝ, img_w ≠ 0 → img_h ≠ 0 →
      ∃ v, c.ray_direction px py img_w img_h = some v) ∧
    (∀ c' : Camera, 0 < c'.radius →
      c'.phi = Real.pi / 2 ∨ c'.phi = -(Real.pi / 2) → Vec3.norm c'.rightRaw = 0) := by
  have hc := Camera.cos_phi_pos c hphi
  refine ⟨⟨Camera.norm_position c hr.le, ?_⟩, ⟨?_, ?_⟩, ?_,
    ⟨_, Camera.basis_vectors_eq c hr hc⟩, ?_, ?_⟩
  · rw [Camera.norm_position c hr.le]
    exact hr
  · rw [Camera.norm_rightRaw c hr]
    exact abs_of_pos hc
  · rw [Camera.norm_rightRaw c hr, abs_of_pos hc]
    exact hc
  · intro px py img_w img_h
    exact Camera.one_le_norm_dirWorld c px py img_w img_h hr hc
  · intro px py img_w img_h hw hh
    exact ⟨_, Camera.ray_direction_eq c px py img_w img_h hr hc hw hh⟩
  · intro c' hr' h'
    rw [Camera.norm_rightRaw c' hr']
    rcases h' with h | h <;> rw [h] <;>
      simp [Real.cos_neg, Real.cos_pi_div_two, abs_zero]

theorem dirty_flag_protocol_witness :
    (dragCam.handle_event (Event.mouseMotion 0 (-1000)))._dirty = true := by
  have hkey : (dragCam.handle_event (Event.mouseMotion 0 (-1000))).phi = Real.pi / 2 := by
    simp only [Camera.handle_event, dragCam, Camera.init]
    norm_num
    rw [min_eq_left (by linarith [Real.pi_le_four]),
      max_eq_right (by linarith [Real.pi_pos])]
  have hne : (dragCam.handle_event (Event.mouseMotion 0 (-1000))).phi ≠ dragCam.phi := by
    rw [hkey, show dragCam.phi = 0 from rfl]
    exact ne_of_gt Real.pi_div_two_pos
  exact dirty_flag_protocol.2.2.1 dragCam (Event.mouseMotion 0 (-1000)) (Or.inr hne)

theorem no_division_by_zero_witness :
    ((0 : ℝ) < Camera.init.radius ∧ |Camera.init.phi| < Real.pi / 2) ∧
    ((Vec3.norm Camera.init.position = Camera.init.radius ∧
      0 < Vec3.norm Camera.init.position) ∧
    (Vec3.norm Camera.init.rightRaw = Real.cos Camera.init.phi ∧
      0 < Vec3.norm Camera.init.rightRaw) ∧
    (∀ px py img_w img_h : ℝ, 1 ≤ Vec3.norm (Camera.init.dirWorld px py img_w img_h)) ∧
    (∃ t, Camera.init.basis_vectors = some t) ∧
    (∀ px py img_w img_h : ℝ, img_w ≠ 0 → img_h ≠ 0 →
      ∃ v, Camera.init.ray_direction px py img_w img_h = some v) ∧
    (∀ c' : Camera, 0 < c'.radius →
      c'.phi = Real.pi / 2 ∨ c'.phi = -(Real.pi / 2) → Vec3.norm c'.rightRaw = 0)) := by
  have h1 : (0 : ℝ) < Camera.init.radius := by norm_num [Camera.init]
  have h2 : |Camera.init.phi| < Real.pi / 2 := by
    rw [show Camera.init.phi = 0 from rfl, abs_zero]
    exact Real.pi_div_two_pos
  exact ⟨⟨h1, h2⟩, no_division_by_zero_in_queries Camera.init h1 h2⟩
